import Mathlib

/-!
Shallow embedding of `skgstat/MetricSpace.py` (distance spaces for
variogram estimation) and proofs about the claims of its specification.

Distances are modelled as exact rationals; a sparse matrix is modelled as
a partial map from index pairs to stored values, or as an explicit list
of (row, column, value) triples. Randomness is modelled by passing the
random source explicitly: a draw stream `ℕ → ℕ` feeds a without-
replacement sampler that models `numpy.random.RandomState.choice` with
`replace=False`.
-/

namespace SkGStat

/-- Errors raised by the Python code: `AttributeError` for the cutoff
mismatch in `find_closest`, `ValueError` for pair-construction
mismatches, `TypeError` for the `int > None` comparison. -/
inductive PyError where
  | attributeError : PyError
  | typeError : PyError
  | valueError : PyError
  deriving DecidableEq

/-! ## DistanceMethods.find_closest (MetricSpace.py lines 23-70) -/

/-- Candidate neighbour columns of one dense row of the distance matrix,
as computed at `MetricSpace.py` lines 59-62: with a cutoff,
`np.where(dists <= max_dist)[0]` (all columns whose entry passes the
cutoff, in increasing column order); without one, `np.arange(len(dists))`. -/
def candidates (row : List ℚ) (maxDist : Option ℚ) : List ℕ :=
  match maxDist with
  | some m => (List.range row.length).filter (fun i => decide (row.getD i 0 ≤ m))
  | none => List.range row.length

/-- Comparison modelling NumPy's stable `argsort` of the candidate
distances (`MetricSpace.py` line 68): the candidate list is strictly
increasing in column index, so a stable sort by distance orders
candidates by distance first and, on ties, by original column index. -/
def lexLe (row : List ℚ) (i j : ℕ) : Bool :=
  decide (row.getD i 0 < row.getD j 0 ∨ (row.getD i 0 = row.getD j 0 ∧ i ≤ j))

/-- Candidates sorted by ascending distance with ties broken by column
index, modelling `ridx[np.argsort(selected_dists, kind="stable")]`
(`MetricSpace.py` lines 63-69). -/
def sortedCandidates (row : List ℚ) (maxDist : Option ℚ) : List ℕ :=
  (candidates row maxDist).mergeSort (lexLe row)

/-- The `find_closest` selection (`MetricSpace.py` lines 53-70), dense-row
path, with the neighbour count `N` supplied: if more candidates than `N`
exist they are stably sorted by distance and truncated to `N`, otherwise
the candidate list is returned unchanged. -/
def find_closest (row : List ℚ) (maxDist : Option ℚ) (N : ℕ) : List ℕ :=
  let ridx := candidates row maxDist
  if N < ridx.length then (sortedCandidates row maxDist).take N else ridx

/-- Body of `find_closest` after the cutoff check, with `N` still
optional: `if ridx.size > N` (`MetricSpace.py` line 63) compares an int
against `N`; when `N` is `None` Python raises `TypeError`. -/
def fcBody (effMax : Option ℚ) (row : List ℚ) (N : Option ℕ) :
    Except PyError (List ℕ) :=
  match N with
  | none => .error .typeError
  | some n => .ok (find_closest row effMax n)

/-- Full embedding of `DistanceMethods.find_closest` with both optional
arguments, for a space whose own cutoff is `selfMax`. Mirrors the control
flow of `MetricSpace.py` lines 45-70: a given `max_dist` that disagrees
with the space's own (set) cutoff raises `AttributeError`; otherwise the
effective cutoff is the given one, or the space's own when omitted. -/
def find_closest_full (selfMax : Option ℚ) (row : List ℚ)
    (maxDist : Option ℚ) (N : Option ℕ) : Except PyError (List ℕ) :=
  match maxDist with
  | none => fcBody selfMax row N
  | some m =>
    match selfMax with
    | some sm => if m ≠ sm then .error .attributeError else fcBody (some m) row N
    | none => fcBody (some m) row N

/-! ## MetricSpace.dists, sparse euclidean path (lines 129-152) -/

/-- Euclidean distance between 1-D points `i` and `j` of the coordinate
list `xs`: the absolute difference of their coordinates, written as a
conditional so that it evaluates by kernel reduction. -/
def dist1 (xs : List ℚ) (i j : ℕ) : ℚ :=
  if xs.getD i 0 ≤ xs.getD j 0 then xs.getD j 0 - xs.getD i 0
  else xs.getD i 0 - xs.getD j 0

/-- One stored entry of the sparse distance matrix built by
`MetricSpace.dists` (`MetricSpace.py` lines 138-143) for 1-D euclidean
coordinates: `tree.sparse_distance_matrix(tree, max_dist)` records every
pair of points within `max_dist`; zero values (the diagonal) are not
retained as stored entries of the sparse result, since sparse storage
does not distinguish an explicit zero from an absent entry. -/
def msSparseEntry (xs : List ℚ) (maxDist : ℚ) (i j : ℕ) : Option ℚ :=
  if i < xs.length ∧ j < xs.length ∧ dist1 xs i j ≤ maxDist ∧ dist1 xs i j ≠ 0
  then some (dist1 xs i j) else none

/-- All stored entries of the sparse matrix of `MetricSpace.dists`, as
(row, column, value) triples in row-major order. -/
def msStoredEntries (xs : List ℚ) (maxDist : ℚ) : List (ℕ × ℕ × ℚ) :=
  (List.range xs.length).flatMap (fun i =>
    (List.range xs.length).filterMap (fun j =>
      (msSparseEntry xs maxDist i j).map (fun d => (i, j, d))))

/-- The branch choice of `MetricSpace.dists` (`MetricSpace.py` line 138):
the sparse tree-based representation is used exactly when a cutoff is set
and the metric is euclidean. -/
def msUsesSparse (maxDist : Option ℚ) (metric : String) : Bool :=
  maxDist.isSome && metric == "euclidean"

/-! ## MetricSpacePair.__init__ (lines 197-221) -/

/-- Configuration of a `MetricSpace` relevant to pair construction: its
metric name and optional cutoff. -/
structure MSConfig where
  metric : String
  maxDist : Option ℚ
  deriving DecidableEq

/-- The input checks of `MetricSpacePair.__init__` (`MetricSpace.py`
lines 207-218): construction fails with `ValueError` when the two spaces
differ in distance metric, then when they differ in `max_dist`. -/
def mkMetricSpacePair (ms1 ms2 : MSConfig) : Except PyError Unit :=
  if ms1.metric ≠ ms2.metric then .error .valueError
  else if ms1.maxDist ≠ ms2.maxDist then .error .valueError
  else .ok ()

/-! ## Without-replacement sampling
Model of `numpy.random.RandomState.choice(n, size=k, replace=False)`:
the random source is an explicit stream of naturals, and each step draws
one element out of a shrinking pool at a stream-chosen position. -/

/-- One without-replacement draw loop over a shrinking pool: at each step
the stream picks a position in the remaining pool, and the element there
is drawn and removed from the pool. -/
def drawLoop (stream : ℕ → ℕ) : ℕ → List ℕ → ℕ → List ℕ
  | 0, _, _ => []
  | k + 1, pool, t =>
    let pos := stream t % pool.length
    pool.getD pos 0 :: drawLoop stream k (pool.eraseIdx pos) (t + 1)

/-- numpy `rnd.choice(n, size=k, replace=False)` drawing from the random
stream starting at stream position `t0`. -/
def randChoice (n k : ℕ) (stream : ℕ → ℕ) (t0 : ℕ) : List ℕ :=
  drawLoop stream k (List.range n) t0

/-! ## Random-state construction (ProbabalisticMetricSpace.__init__
line 297 versus RasterEquidistantMetricSpace.__init__ line 443)
A `numpy.random.SeedSequence` built from an integer seed is a pure
function of that seed; built with no argument it draws fresh operating-
system entropy. The entropy visible to a construction is modelled as an
explicit argument, so that the dependence (or non-dependence) of the
resulting generator state on the caller's seed becomes provable. -/

/-- State of `np.random.SeedSequence(seed)`: determined by the seed when
one is given, and by fresh OS entropy when none is. -/
def seedSequenceState : Option ℕ → ℕ → ℕ
  | some s, _ => s
  | none, entropy => entropy

/-- Generator state built by `ProbabalisticMetricSpace.__init__` for an
integer seed `rnd` (`MetricSpace.py` line 297):
`RandomState(MT19937(SeedSequence(rnd)))`. -/
def probInitRnd (rnd : ℕ) (entropy : ℕ) : ℕ :=
  seedSequenceState (some rnd) entropy

/-- Generator state built by `RasterEquidistantMetricSpace.__init__` for
an integer seed (`MetricSpace.py` line 443):
`RandomState(MT19937(SeedSequence( )))` — the `SeedSequence` call passes
no argument, so the given seed does not reach it. -/
def remsInitRnd (_rnd : ℕ) (entropy : ℕ) : ℕ :=
  seedSequenceState none entropy

/-! ## ProbabalisticMetricSpace.lidx, ridx, dists (lines 314-379) -/

/-- Check of a distance against an optional cutoff. In
`ProbabalisticMetricSpace.dists` an unset `max_dist` is replaced by the
largest representable float (lines 365-367), an effectively unbounded
search radius. -/
def withinCutoff (maxDist : Option ℚ) (d : ℚ) : Bool :=
  match maxDist with
  | none => true
  | some m => decide (d ≤ m)

/-- The left sample `ProbabalisticMetricSpace.lidx` (lines 314-319):
`rnd.choice(len(coords), size=sample_count, replace=False)`, drawn first
from the generator. -/
def probLidx (n k : ℕ) (stream : ℕ → ℕ) : List ℕ :=
  randChoice n k stream 0

/-- The right sample `ProbabalisticMetricSpace.ridx` (lines 321-326):
a second `rnd.choice(len(coords), size=sample_count, replace=False)`,
drawn from the same generator after the left sample. -/
def probRidx (n k : ℕ) (stream : ℕ → ℕ) : List ℕ :=
  randChoice n k stream k

/-- Entry of the remapped sparse matrix of
`ProbabalisticMetricSpace.dists` (`MetricSpace.py` lines 368-377). The
tree query yields one local entry per pair `(r, c)` of sample positions
whose distance passes the cutoff, holding the distance between points
`lidx[r]` and `ridx[c]`; the two remapping passes (columns in csr layout,
then rows in csc layout) move each entry to global position
`(lidx[r], ridx[c])`. Both index lists are duplicate-free, so the global
entry at `(i, j)` exists exactly when `i` is a left sample, `j` is a
right sample, and their distance passes the cutoff. -/
def probDists (d : ℕ → ℕ → ℚ) (maxDist : Option ℚ)
    (lidx ridx : List ℕ) (i j : ℕ) : Option ℚ :=
  if i ∈ lidx ∧ j ∈ ridx ∧ withinCutoff maxDist (d i j) then some (d i j)
  else none

/-! ## RasterEquidistantMetricSpace.dists: the per-round center
(lines 568-578) -/

/-- The flat array behind `rnd.choice(len(coords), size=(2, runs),
replace=False)` (`MetricSpace.py` line 568): `2 * runs` distinct indices
drawn without replacement, reshaped row-major to shape `(2, runs)`, so
entry `[r, i]` is flat element `r * runs + i`. -/
def remsIdxCenterFlat (n runs : ℕ) (stream : ℕ → ℕ) : List ℕ :=
  randChoice n (2 * runs) stream 0

/-- The center of round `i` (`MetricSpace.py` line 576):
`(coords[idx_center[0, i], 0], coords[idx_center[1, i], 1])` — the x
coordinate of the point drawn at flat position `i` paired with the y
coordinate of the (different) point drawn at flat position `runs + i`. -/
def remsRoundCenter (coords : List (ℚ × ℚ)) (n runs : ℕ)
    (stream : ℕ → ℕ) (i : ℕ) : ℚ × ℚ :=
  let flat := remsIdxCenterFlat n runs stream
  ((coords.getD (flat.getD i 0) (0, 0)).1,
   (coords.getD (flat.getD (runs + i) 0) (0, 0)).2)

/-- Graph of the center radius computed at `MetricSpace.py` line 578:
`np.sqrt(self.sample_count / np.pi) * self.res`. -/
def remsCenterRadiusRel (sampleCount : ℕ) (res radius : ℝ) : Prop :=
  radius = Real.sqrt ((sampleCount : ℝ) / Real.pi) * res

/-! ## RasterEquidistantMetricSpace.eqidx: per-ring selection
(lines 521-539) -/

/-- The index array `~rnd.choice(m, size=min(m, sample_count),
replace=False)` of `MetricSpace.py` line 534, as used for integer-array
indexing on line 535. NumPy `~x` on an integer array is bitwise
complement, `-x - 1`, and indexing a length-`m` axis at `-x - 1` selects
position `m - 1 - x`; so the drawn positions are replaced by their
mirror positions. -/
def keepHalfNeg (m s : ℕ) (stream : ℕ → ℕ) (t0 : ℕ) : List ℕ :=
  (randChoice m (min m s) stream t0).map (fun x => m - 1 - x)

/-- The global indices one ring contributes before the size guard
(`MetricSpace.py` lines 527-535): `ring` lists the positions of the
points inside the ring (`np.argwhere` output, duplicate-free), and
`indices1[indices2]` picks the entries of `ring` at the mirrored drawn
positions. -/
def eqidxRing (ring : List ℕ) (s : ℕ) (stream : ℕ → ℕ) (t0 : ℕ) :
    List ℕ :=
  (keepHalfNeg ring.length s stream t0).map (fun p => ring.getD p 0)

/-- One ring's contribution to the round's equidistant index set
(`MetricSpace.py` lines 536-537): the selection is kept only when it has
more than one element. -/
def ringContribution (ring : List ℕ) (s : ℕ) (stream : ℕ → ℕ)
    (t0 : ℕ) : List ℕ :=
  let sub := eqidxRing ring s stream t0
  if 1 < sub.length then sub else []

/-! ## RasterEquidistantMetricSpace.dists: final assembly
(lines 608-625) -/

/-- Final sparse assembly of `RasterEquidistantMetricSpace.dists`
(`MetricSpace.py` lines 623-625): `dok._update(zip(zip(c, eq), d))` is a
Python dict update over the concatenated (key, value) sequence — each
pair assigns its value to its key, a later assignment to the same key
overwriting an earlier one. -/
def dokAssemble (triples : List ((ℕ × ℕ) × ℚ)) : (ℕ × ℕ) → Option ℚ :=
  triples.foldl (fun acc kv key => if key = kv.1 then some kv.2 else acc key)
    (fun _ => none)

/-- Value of the last triple carrying a given key, the reference the
final assembly is compared against. -/
def lastAssoc (triples : List ((ℕ × ℕ) × ℚ)) (key : ℕ × ℕ) : Option ℚ :=
  ((triples.filter (fun kv => kv.1 = key)).getLast?).map (fun kv => kv.2)

/-! ## Lemmas about the without-replacement sampler -/

theorem dist1_eq_abs (xs : List ℚ) (i j : ℕ) :
    dist1 xs i j = |xs.getD i 0 - xs.getD j 0| := by
  unfold dist1
  rcases le_or_lt (xs.getD i 0) (xs.getD j 0) with h | h
  · rw [if_pos h, abs_sub_comm, abs_of_nonneg (by linarith)]
  · rw [if_neg (by linarith), abs_of_nonneg (by linarith)]

theorem drawLoop_length (stream : ℕ → ℕ) :
    ∀ (k : ℕ) (pool : List ℕ) (t : ℕ), k ≤ pool.length →
      (drawLoop stream k pool t).length = k := by
  intro k
  induction k with
  | zero => intro pool t _; rfl
  | succ k ih =>
    intro pool t hk
    have hpos : stream t % pool.length < pool.length :=
      Nat.mod_lt _ (Nat.lt_of_lt_of_le (Nat.succ_pos k) hk)
    have herase : (pool.eraseIdx (stream t % pool.length)).length =
        pool.length - 1 := List.length_eraseIdx_of_lt hpos
    simp only [drawLoop, List.length_cons]
    rw [ih _ (t + 1) (by omega)]

theorem drawLoop_mem (stream : ℕ → ℕ) :
    ∀ (k : ℕ) (pool : List ℕ) (t : ℕ), k ≤ pool.length →
      ∀ x ∈ drawLoop stream k pool t, x ∈ pool := by
  intro k
  induction k with
  | zero => intro pool t _ x hx; simp [drawLoop] at hx
  | succ k ih =>
    intro pool t hk x hx
    have hpos : stream t % pool.length < pool.length :=
      Nat.mod_lt _ (Nat.lt_of_lt_of_le (Nat.succ_pos k) hk)
    have herase : (pool.eraseIdx (stream t % pool.length)).length =
        pool.length - 1 := List.length_eraseIdx_of_lt hpos
    simp only [drawLoop, List.mem_cons] at hx
    rcases hx with hx | hx
    · have hm : pool.getD (stream t % pool.length) 0 ∈ pool := by
        rw [List.getD_eq_getElem?_getD, List.getElem?_eq_getElem hpos]
        exact List.getElem_mem hpos
      exact hx ▸ hm
    · exact List.eraseIdx_subset _ _ (ih _ (t + 1) (by omega) x hx)

theorem nodup_getElem_not_mem_eraseIdx (l : List ℕ) (hnd : l.Nodup)
    (pos : ℕ) (hpos : pos < l.length) :
    l.getD pos 0 ∉ l.eraseIdx pos := by
  intro hmem
  rw [List.getD_eq_getElem?_getD, List.getElem?_eq_getElem hpos,
    Option.getD_some] at hmem
  obtain ⟨i, hi, hne, heq⟩ := List.mem_eraseIdx_iff_getElem.mp hmem
  exact hne ((hnd.getElem_inj_iff).mp heq)

theorem drawLoop_nodup (stream : ℕ → ℕ) :
    ∀ (k : ℕ) (pool : List ℕ) (t : ℕ), k ≤ pool.length → pool.Nodup →
      (drawLoop stream k pool t).Nodup := by
  intro k
  induction k with
  | zero => intro pool t _ _; simp [drawLoop]
  | succ k ih =>
    intro pool t hk hnd
    have hpos : stream t % pool.length < pool.length :=
      Nat.mod_lt _ (Nat.lt_of_lt_of_le (Nat.succ_pos k) hk)
    have herase : (pool.eraseIdx (stream t % pool.length)).length =
        pool.length - 1 := List.length_eraseIdx_of_lt hpos
    simp only [drawLoop, List.nodup_cons]
    constructor
    · intro hmem
      exact nodup_getElem_not_mem_eraseIdx pool hnd _ hpos
        (drawLoop_mem stream k _ (t + 1) (by omega) _ hmem)
    · exact ih _ (t + 1) (by omega) (hnd.eraseIdx _)

theorem randChoice_length (n k : ℕ) (stream : ℕ → ℕ) (t0 : ℕ)
    (h : k ≤ n) : (randChoice n k stream t0).length = k :=
  drawLoop_length stream k (List.range n) t0 (by simpa using h)

theorem randChoice_lt (n k : ℕ) (stream : ℕ → ℕ) (t0 : ℕ)
    (h : k ≤ n) : ∀ x ∈ randChoice n k stream t0, x < n := by
  intro x hx
  have hm := drawLoop_mem stream k (List.range n) t0 (by simpa using h) x hx
  simpa using hm

theorem randChoice_nodup (n k : ℕ) (stream : ℕ → ℕ) (t0 : ℕ)
    (h : k ≤ n) : (randChoice n k stream t0).Nodup :=
  drawLoop_nodup stream k (List.range n) t0 (by simpa using h)
    (List.nodup_range n)

/-! ## Lemmas about the final assembly -/

theorem dokAssemble_concat (ts : List ((ℕ × ℕ) × ℚ)) (kv : (ℕ × ℕ) × ℚ)
    (key : ℕ × ℕ) :
    dokAssemble (ts ++ [kv]) key =
      if key = kv.1 then some kv.2 else dokAssemble ts key := by
  unfold dokAssemble
  rw [List.foldl_append]
  rfl

theorem lastAssoc_concat (ts : List ((ℕ × ℕ) × ℚ)) (kv : (ℕ × ℕ) × ℚ)
    (key : ℕ × ℕ) :
    lastAssoc (ts ++ [kv]) key =
      if key = kv.1 then some kv.2 else lastAssoc ts key := by
  unfold lastAssoc
  rw [List.filter_append]
  by_cases h : key = kv.1
  · rw [if_pos h]
    have hf : List.filter (fun kv₂ => decide (kv₂.1 = key)) [kv] = [kv] := by
      simp [h.symm]
    rw [hf, List.getLast?_concat]
    rfl
  · rw [if_neg h]
    have hf : List.filter (fun kv₂ => decide (kv₂.1 = key)) [kv] = [] := by
      simp only [List.filter_cons, List.filter_nil]
      rw [if_neg (by simpa using fun hh => h hh.symm)]
    rw [hf, List.append_nil]

/-! ## Lemmas about the stable-sort comparison -/

theorem lexLe_trans (row : List ℚ) : ∀ a b c,
    lexLe row a b → lexLe row b c → lexLe row a c := by
  intro a b c hab hbc
  simp only [lexLe, decide_eq_true_eq] at hab hbc ⊢
  rcases hab with h1 | ⟨h1, h1i⟩ <;> rcases hbc with h2 | ⟨h2, h2i⟩
  · exact Or.inl (h1.trans h2)
  · exact Or.inl (lt_of_lt_of_eq h1 h2)
  · exact Or.inl (lt_of_eq_of_lt h1 h2)
  · exact Or.inr ⟨h1.trans h2, h1i.trans h2i⟩

theorem lexLe_total (row : List ℚ) : ∀ a b,
    lexLe row a b || lexLe row b a := by
  intro a b
  simp only [lexLe, Bool.or_eq_true, decide_eq_true_eq]
  rcases lt_trichotomy (row.getD a 0) (row.getD b 0) with h | h | h
  · exact Or.inl (Or.inl h)
  · rcases Nat.le_total a b with hi | hi
    · exact Or.inl (Or.inr ⟨h, hi⟩)
    · exact Or.inr (Or.inr ⟨h.symm, hi⟩)
  · exact Or.inr (Or.inl h)

/-! ## Claim theorems -/

/-- Claim C1 (code-bug evidence): `RasterEquidistantMetricSpace.__init__`
builds its generator from `SeedSequence()` with no argument (line 443),
so the caller's integer seed never reaches the generator. The state
depends only on fresh OS entropy: two constructions with the identical
seed 42 but different entropy disagree, the state is independent of the
seed, and — in contrast — the `ProbabalisticMetricSpace` initializer
(line 297) produces a state fully determined by the seed. Hence, for a
fixed integer seed, two independent constructions do not reproduce the
same draws, and the `dists` matrices they build are not identical in
general. -/
theorem remsInitRnd_ignores_seed :
    remsInitRnd 42 0 ≠ remsInitRnd 42 1 ∧
    (∀ s₁ s₂ e, remsInitRnd s₁ e = remsInitRnd s₂ e) ∧
    (∀ s e₁ e₂, probInitRnd s e₁ = probInitRnd s e₂) :=
  ⟨by decide, fun _ _ _ => rfl, fun _ _ _ => rfl⟩

/-- Claim C2 counterexample: the final assembly keeps the value of the
LAST duplicate, not the first. On the triple list
`[((0,1), 5), ((0,1), 7)]` the stored value at key `(0,1)` is `7` — the
later value, not the first occurrence `5` and not the sum `12`. -/
theorem dokAssemble_not_first_wins :
    dokAssemble [((0, 1), 5), ((0, 1), 7)] (0, 1) = some 7 ∧
    some (7 : ℚ) ≠ some (5 : ℚ) ∧ some (7 : ℚ) ≠ some (12 : ℚ) :=
  ⟨rfl, by norm_num, by norm_num⟩

/-- Claim C2 (amended): for every accumulated triple list and every key,
the value stored by the final assembly `dok._update(zip(zip(c, eq), d))`
is the value of the LAST triple carrying that key (duplicates are
dropped in favor of the last occurrence, never summed). Since a
duplicate key names the same global point pair, whose distance is the
same in every round, the stored value still equals each duplicate's
distance in an actual run. -/
theorem dokAssemble_last_wins (triples : List ((ℕ × ℕ) × ℚ))
    (key : ℕ × ℕ) :
    dokAssemble triples key = lastAssoc triples key := by
  induction triples using List.reverseRecOn with
  | nil => rfl
  | append_singleton ts kv ih =>
    rw [dokAssemble_concat, lastAssoc_concat, ih]

/-- Claim C7: for the five 1-D points `[0, 1, 2, 3, 10]` with the
euclidean metric and `max_dist = 2`, `MetricSpace.dists` takes the
sparse branch, and the stored entries are exactly the ten listed
off-diagonal pairs, none of which involves point 4. -/
theorem msDists_line_example :
    msUsesSparse (some 2) "euclidean" = true ∧
    msStoredEntries [0, 1, 2, 3, 10] 2 =
      [(0, 1, 1), (0, 2, 2), (1, 0, 1), (1, 2, 1), (1, 3, 2),
       (2, 0, 2), (2, 1, 1), (2, 3, 1), (3, 1, 2), (3, 2, 1)] ∧
    ∀ e ∈ msStoredEntries [0, 1, 2, 3, 10] 2, e.1 ≠ 4 ∧ e.2.1 ≠ 4 := by
  have hB : msStoredEntries [0, 1, 2, 3, 10] 2 =
      [(0, 1, 1), (0, 2, 2), (1, 0, 1), (1, 2, 1), (1, 3, 2),
       (2, 0, 2), (2, 1, 1), (2, 3, 1), (3, 1, 2), (3, 2, 1)] := by
    norm_num [msStoredEntries, msSparseEntry, dist1, List.range_succ,
      List.filterMap_cons, List.getD]
  refine ⟨rfl, hB, ?_⟩
  rw [hB]
  decide

/-- Claim C8: on a space whose own `max_dist` is set, `find_closest`
fails with the configuration error (`AttributeError`) exactly when the
`max_dist` argument is given and differs from the space's own; when they
agree, or when the argument is omitted, no such error is raised. -/
theorem find_closest_cutoff_check (m mArg : ℚ) (row : List ℚ)
    (N : Option ℕ) :
    (find_closest_full (some m) row (some mArg) N = .error .attributeError
      ↔ mArg ≠ m) ∧
    find_closest_full (some m) row none N ≠ .error .attributeError := by
  constructor
  · unfold find_closest_full
    by_cases h : mArg ≠ m
    · simp [h]
    · simp only [h, if_false, iff_false]
      cases N <;> simp [fcBody, h]
  · unfold find_closest_full fcBody
    cases N <;> simp

/-- Claim C9: constructing a `MetricSpacePair` succeeds exactly when the
two spaces share the metric name and the `max_dist` setting (including
both absent), and fails with the configuration error (`ValueError`)
exactly otherwise. -/
theorem mkMetricSpacePair_iff (ms1 ms2 : MSConfig) :
    (mkMetricSpacePair ms1 ms2 = .ok () ↔
      ms1.metric = ms2.metric ∧ ms1.maxDist = ms2.maxDist) ∧
    (mkMetricSpacePair ms1 ms2 = .error .valueError ↔
      ¬(ms1.metric = ms2.metric ∧ ms1.maxDist = ms2.maxDist)) := by
  unfold mkMetricSpacePair
  by_cases h1 : ms1.metric = ms2.metric <;>
    by_cases h2 : ms1.maxDist = ms2.maxDist <;> simp [h1, h2]

/-- Claim C10: calling `find_closest` with the count `N` left at its
default `None` never returns an index set: the default call fails with
`TypeError` at the comparison `ridx.size > N`, and with any `max_dist`
argument the call still returns no result. -/
theorem find_closest_default_N (selfMax mArg : Option ℚ)
    (row : List ℚ) :
    find_closest_full selfMax row none none = .error .typeError ∧
    ∀ r, find_closest_full selfMax row mArg none ≠ .ok r := by
  constructor
  · rfl
  · intro r
    unfold find_closest_full fcBody
    cases mArg with
    | none => simp
    | some m =>
      cases selfMax with
      | none => simp
      | some sm => by_cases h : m ≠ sm <;> simp [h]

/-- Claim C5: `find_closest` with the count `N` supplied. When the
candidates outnumber `N`, the result is the candidate list stably sorted
by ascending distance with ties broken by original column index,
truncated to exactly `N` entries all of which are candidates; when the
candidates number at most `N`, the candidate list is returned unchanged
in its original order; in all cases at most `N` indices are returned. -/
theorem find_closest_spec (row : List ℚ) (maxDist : Option ℚ) (N : ℕ) :
    (N < (candidates row maxDist).length →
      find_closest row maxDist N = (sortedCandidates row maxDist).take N ∧
      (find_closest row maxDist N).length = N ∧
      (find_closest row maxDist N).Pairwise (fun i j => lexLe row i j = true) ∧
      ∀ x ∈ find_closest row maxDist N, x ∈ candidates row maxDist) ∧
    ((candidates row maxDist).length ≤ N →
      find_closest row maxDist N = candidates row maxDist) ∧
    (find_closest row maxDist N).length ≤ N := by
  have hsorted : (sortedCandidates row maxDist).Pairwise
      (fun i j => lexLe row i j = true) :=
    List.sorted_mergeSort (lexLe_trans row) (lexLe_total row) _
  have hlen : (sortedCandidates row maxDist).length =
      (candidates row maxDist).length := by
    simp [sortedCandidates]
  refine ⟨fun h => ?_, fun h => ?_, ?_⟩
  · have heq : find_closest row maxDist N =
        (sortedCandidates row maxDist).take N := by
      simp [find_closest, h]
    refine ⟨heq, ?_, ?_, ?_⟩
    · rw [heq, List.length_take, hlen]
      omega
    · rw [heq]
      exact List.Pairwise.sublist (List.take_sublist _ _) hsorted
    · intro x hx
      rw [heq] at hx
      have hx2 : x ∈ sortedCandidates row maxDist :=
        List.take_subset _ _ hx
      simpa [sortedCandidates] using hx2
  · simp [find_closest, Nat.not_lt.mpr h]
  · by_cases h : N < (candidates row maxDist).length
    · have heq : find_closest row maxDist N =
          (sortedCandidates row maxDist).take N := by
        simp [find_closest, h]
      rw [heq, List.length_take]
      exact Nat.min_le_left _ _
    · have heq : find_closest row maxDist N = candidates row maxDist := by
        simp [find_closest, h]
      rw [heq]
      exact Nat.le_of_not_lt h

/-- Witness for claim C5: the row `[0, 1, 2, 3, 10]` with cutoff 2 has
three candidates, so requesting two neighbours truncates to exactly
two. -/
theorem find_closest_spec_w :
    2 < (candidates [0, 1, 2, 3, 10] (some 2)).length ∧
    (find_closest [0, 1, 2, 3, 10] (some 2) 2).length = 2 := by
  have h : 2 < (candidates [0, 1, 2, 3, 10] (some 2)).length := by
    norm_num [candidates, List.range_succ, List.getD]
  exact ⟨h, ((find_closest_spec [0, 1, 2, 3, 10] (some 2) 2).1 h).2.1⟩

/-- Claim C6: for a probabilistic space over `n` points with
`sample_count = k ≤ n`, the left and right samples each hold exactly `k`
distinct indices below `n`, and every stored entry of the remapped
sparse matrix sits at a position whose row is a left sample and whose
column is a right sample — inside the `n × n` shape — holding the
distance of that global pair. -/
theorem probDists_support (n k : ℕ) (stream : ℕ → ℕ) (d : ℕ → ℕ → ℚ)
    (maxDist : Option ℚ) (hk : k ≤ n) :
    (probLidx n k stream).length = k ∧ (probLidx n k stream).Nodup ∧
    (∀ x ∈ probLidx n k stream, x < n) ∧
    (probRidx n k stream).length = k ∧ (probRidx n k stream).Nodup ∧
    (∀ x ∈ probRidx n k stream, x < n) ∧
    (∀ i j q,
      probDists d maxDist (probLidx n k stream) (probRidx n k stream) i j
        = some q →
      i ∈ probLidx n k stream ∧ j ∈ probRidx n k stream ∧
        i < n ∧ j < n ∧ q = d i j) := by
  refine ⟨randChoice_length _ _ _ _ hk, randChoice_nodup _ _ _ _ hk,
    randChoice_lt _ _ _ _ hk, randChoice_length _ _ _ _ hk,
    randChoice_nodup _ _ _ _ hk, randChoice_lt _ _ _ _ hk, ?_⟩
  intro i j q hq
  unfold probDists at hq
  split at hq
  case isTrue h =>
    obtain ⟨hi, hj, _⟩ := h
    exact ⟨hi, hj, randChoice_lt _ _ _ _ hk i hi,
      randChoice_lt _ _ _ _ hk j hj, (Option.some_inj.mp hq).symm⟩
  case isFalse h => exact absurd hq (by simp)

/-- Witness for claim C6 at `n = 3`, `k = 2`, the identity stream and a
constant distance. -/
theorem probDists_support_w :
    2 ≤ 3 ∧ (probLidx 3 2 (fun t => t)).length = 2 :=
  ⟨by decide,
    (probDists_support 3 2 (fun t => t) (fun _ _ => 1) none (by decide)).1⟩

/-- Claim C3 counterexample: with the coordinate cloud
`[(0, 10), (1, 20)]` and the valid without-replacement center draw
`[0, 1]` for a single round, the code's round center is `(0, 20)` — the
x of point 0 paired with the y of point 1 — which is not the coordinate
pair of any point of the cloud, so the center is not a single randomly
drawn coordinate point. -/
theorem remsRoundCenter_not_single_point :
    remsIdxCenterFlat 2 1 (fun t => t) = [0, 1] ∧
    remsRoundCenter [(0, 10), (1, 20)] 2 1 (fun t => t) 0 = (0, 20) ∧
    ∀ p ∈ [((0 : ℚ), (10 : ℚ)), ((1 : ℚ), (20 : ℚ))],
      remsRoundCenter [(0, 10), (1, 20)] 2 1 (fun t => t) 0 ≠ p := by
  have hc : remsRoundCenter [(0, 10), (1, 20)] 2 1 (fun t => t) 0 =
      ((0 : ℚ), (20 : ℚ)) := rfl
  refine ⟨by decide, hc, ?_⟩
  intro p hp hEq
  rw [hc] at hEq
  simp only [List.mem_cons, List.not_mem_nil, or_false] at hp
  rcases hp with h | h
  · rw [h] at hEq
    exact absurd (congrArg Prod.snd hEq) (by norm_num)
  · rw [h] at hEq
    exact absurd (congrArg Prod.fst hEq) (by norm_num)

/-- Claim C3 (amended): in every round `i`, the center's x coordinate
comes from the point drawn at flat position `i` and its y coordinate
from the point drawn at flat position `runs + i` of the without-
replacement draw of shape `(2, runs)`; those two drawn indices are
always distinct, so the center mixes the coordinates of two different
cloud points (it is a grid location, not a drawn point). The center
radius does equal `sqrt(sample_count / π) * resolution`. -/
theorem remsRoundCenter_spec (coords : List (ℚ × ℚ)) (n runs : ℕ)
    (stream : ℕ → ℕ) (i : ℕ) (hruns : 2 * runs ≤ n) (hi : i < runs) :
    remsRoundCenter coords n runs stream i =
      ((coords.getD ((remsIdxCenterFlat n runs stream).getD i 0) (0, 0)).1,
       (coords.getD ((remsIdxCenterFlat n runs stream).getD (runs + i) 0)
         (0, 0)).2) ∧
    (remsIdxCenterFlat n runs stream).getD i 0 ≠
      (remsIdxCenterFlat n runs stream).getD (runs + i) 0 ∧
    ∀ (sc : ℕ) (res : ℝ),
      remsCenterRadiusRel sc res (Real.sqrt ((sc : ℝ) / Real.pi) * res) := by
  have hlen : (remsIdxCenterFlat n runs stream).length = 2 * runs :=
    randChoice_length _ _ _ _ hruns
  have hnd : (remsIdxCenterFlat n runs stream).Nodup :=
    randChoice_nodup _ _ _ _ hruns
  have h1 : i < (remsIdxCenterFlat n runs stream).length := by omega
  have h2 : runs + i < (remsIdxCenterFlat n runs stream).length := by omega
  refine ⟨rfl, ?_, fun sc res => rfl⟩
  rw [List.getD_eq_getElem?_getD, List.getElem?_eq_getElem h1,
    Option.getD_some, List.getD_eq_getElem?_getD,
    List.getElem?_eq_getElem h2, Option.getD_some]
  intro hEq
  have hij := hnd.getElem_inj_iff.mp hEq
  omega

/-- Witness for claim C3 (amended) at two points and one round. -/
theorem remsRoundCenter_spec_w :
    2 * 1 ≤ 2 ∧ 0 < 1 ∧
    (remsIdxCenterFlat 2 1 (fun t => t)).getD 0 0 ≠
      (remsIdxCenterFlat 2 1 (fun t => t)).getD (1 + 0) 0 :=
  ⟨by decide, by decide,
    (remsRoundCenter_spec [(0, 10), (1, 20)] 2 1 (fun t => t) 0
      (by decide) (by decide)).2.1⟩

/-- Claim C4 counterexample: a ring with exactly two candidate positions
and `sample_count = 2`. The code's selection keeps BOTH candidates (the
`~` mirror does not reduce the selection size), so the ring contributes
two points, where a "keep half" exclusion would have left at most
`⌊min(2, 2) / 2⌋ = 1` point and an empty (skipped) contribution. -/
theorem eqidxRing_no_keep_half :
    eqidxRing [5, 9] 2 (fun t => t) 0 = [9, 5] ∧
    (eqidxRing [5, 9] 2 (fun t => t) 0).length = 2 ∧
    ¬((eqidxRing [5, 9] 2 (fun t => t) 0).length ≤ min 2 2 / 2) ∧
    ringContribution [5, 9] 2 (fun t => t) 0 = [9, 5] :=
  ⟨by decide, by decide, by decide, by decide⟩

/-- Claim C4 (amended): in every ring, the selected indices are exactly
`min(candidate count, sample_count)` distinct valid positions of points
inside that ring — the mirror positions of a without-replacement draw,
with NO keep-half reduction — and rings whose selection has fewer than
two points contribute nothing. -/
theorem eqidxRing_spec (ring : List ℕ) (s : ℕ) (stream : ℕ → ℕ)
    (t0 : ℕ) (hnd : ring.Nodup) :
    (eqidxRing ring s stream t0).length = min ring.length s ∧
    (eqidxRing ring s stream t0).Nodup ∧
    (∀ x ∈ eqidxRing ring s stream t0, x ∈ ring) ∧
    ((eqidxRing ring s stream t0).length ≤ 1 →
      ringContribution ring s stream t0 = []) ∧
    (1 < (eqidxRing ring s stream t0).length →
      ringContribution ring s stream t0 = eqidxRing ring s stream t0) := by
  have hmin : min ring.length s ≤ ring.length := Nat.min_le_left _ _
  have hclen : (randChoice ring.length (min ring.length s) stream t0).length
      = min ring.length s := randChoice_length _ _ _ _ hmin
  have hclt : ∀ x ∈ randChoice ring.length (min ring.length s) stream t0,
      x < ring.length := randChoice_lt _ _ _ _ hmin
  have hcnd : (randChoice ring.length (min ring.length s) stream t0).Nodup :=
    randChoice_nodup _ _ _ _ hmin
  have hklen : (keepHalfNeg ring.length s stream t0).length =
      min ring.length s := by
    simp [keepHalfNeg, hclen]
  have hklt : ∀ p ∈ keepHalfNeg ring.length s stream t0,
      p < ring.length := by
    intro p hp
    simp only [keepHalfNeg, List.mem_map] at hp
    obtain ⟨x, hx, rfl⟩ := hp
    have hx2 := hclt x hx
    omega
  have hknd : (keepHalfNeg ring.length s stream t0).Nodup := by
    refine List.Nodup.map_on ?_ hcnd
    intro x hx y hy hxy
    have hx2 := hclt x hx
    have hy2 := hclt y hy
    omega
  refine ⟨?_, ?_, ?_, ?_, ?_⟩
  · simp [eqidxRing, hklen]
  · refine List.Nodup.map_on ?_ hknd
    intro p hp q hq hpq
    have hp2 := hklt p hp
    have hq2 := hklt q hq
    rw [List.getD_eq_getElem?_getD, List.getElem?_eq_getElem hp2,
      Option.getD_some, List.getD_eq_getElem?_getD,
      List.getElem?_eq_getElem hq2, Option.getD_some] at hpq
    exact hnd.getElem_inj_iff.mp hpq
  · intro x hx
    simp only [eqidxRing, List.mem_map] at hx
    obtain ⟨p, hp, rfl⟩ := hx
    have hp2 := hklt p hp
    rw [List.getD_eq_getElem?_getD, List.getElem?_eq_getElem hp2,
      Option.getD_some]
    exact List.getElem_mem hp2
  · intro h
    simp [ringContribution, Nat.not_lt.mpr h]
  · intro h
    simp [ringContribution, h]

/-- Witness for claim C4 (amended) at a two-candidate ring. -/
theorem eqidxRing_spec_w :
    ([5, 9] : List ℕ).Nodup ∧
    (eqidxRing [5, 9] 2 (fun t => t) 0).length =
      min ([5, 9] : List ℕ).length 2 :=
  ⟨by decide, (eqidxRing_spec [5, 9] 2 (fun t => t) 0 (by decide)).1⟩

end SkGStat
